import Mathlib

/-!
# Verification of the SchurSieve numerical pipeline

A shallow embedding of `src/schur_sieve.py`. Floating-point arithmetic is
modelled by exact rational arithmetic (`ℚ`): every numeric value in the
pipeline is a scalar, and the claims under scrutiny are structural
(recurrence laws, index conventions, error branches, concrete values), so the
rational model mirrors the float program operation for operation.

The evaluator object `SchurSieve` carries the three persistent fields of the
Python class (`_primes`, `_h_basis`, `_degree`); exceptions are modelled by
`Except` with one constructor per distinct raise site.
-/

namespace SchurSieveModel

/-- The distinct error kinds raised by the core (one per raise site):
`ValueError` for a non-positive degree, `RuntimeError` for an uninitialized
basis, `IndexError` for an insufficient basis degree, and `ValueError` for a
singular reference topology. -/
inductive SieveError where
  | invalidDegree
  | basisUninitialized
  | insufficientDegree
  | singularTopology
  deriving DecidableEq, Repr

/-- Persistent state of the Python `SchurSieve` object: `self._primes`,
`self._h_basis` (empty before any successful `compute_basis`), and
`self._degree` (0 initially). -/
structure SchurSieve where
  primes : List ℚ
  h_basis : List ℚ
  degree : ℕ
  deriving DecidableEq, Repr

/-- The state of a freshly constructed object with the given prime data:
`self._h_basis = np.array([])`, `self._degree = 0`. -/
def initSieve (primes : List ℚ) : SchurSieve :=
  { primes := primes, h_basis := [], degree := 0 }

/-- Power sum of the reciprocals: `p_k = sum((1/p_i)^k)` over the prime
sequence (the `betas = np.reciprocal(self._primes)` line followed by
`np.sum(np.power(betas, k))`). -/
def powerSum (primes : List ℚ) (k : ℕ) : ℚ :=
  (primes.map (fun p => (1 / p) ^ k)).sum

/-- The list `p_sums` of `compute_basis`: `p_sums[j]` corresponds to
`p_(j+1)`, for `j` ranging over `0 .. maxDegree - 1`. -/
def powerSums (primes : List ℚ) (maxDegree : ℕ) : List ℚ :=
  (List.range maxDegree).map (fun j => powerSum primes (j + 1))

/-- The `term_sum` of one Newton-identity step in `compute_basis`:
`sum(p_sums[k-1] * h[n-k] for k in range(1, n+1))`, reindexed by
`j = k - 1`. -/
def newtonTerm (p_sums h : List ℚ) (n : ℕ) : ℚ :=
  ((List.range n).map (fun j => p_sums.getD j 0 * h.getD (n - 1 - j) 0)).sum

/-- The `h` list built by the loop of `compute_basis`: `h = [1.0]`, then for
`n = 1 .. maxDegree` append `term_sum / n`. `buildH p_sums n` is the list
after iteration `n`, of length `n + 1`. -/
def buildH (p_sums : List ℚ) : ℕ → List ℚ
  | 0 => [1]
  | n + 1 =>
      let h := buildH p_sums n
      h ++ [newtonTerm p_sums h (n + 1) / ((n : ℚ) + 1)]

/-- `compute_basis(max_degree)`: raises `ValueError` when `max_degree <= 0`,
otherwise stores the Newton-identity basis and the degree.  The argument is
an integer (`ℤ`) as in Python, so non-positive requests are representable. -/
def compute_basis (s : SchurSieve) (max_degree : ℤ) : Except SieveError SchurSieve :=
  if max_degree ≤ 0 then .error .invalidDegree
  else
    let D := max_degree.toNat
    let p_sums := powerSums s.primes D
    .ok { s with h_basis := buildH p_sums D, degree := D }

/-- The padding step of `_construct_jacobi_trudi`:
`if len(mu) != k: mu = mu + [0] * (k - len(mu))`.  Note that Python's
`[0] * negative` is `[]`, exactly like `List.replicate (k - mu.length) 0`
under truncated natural subtraction when `mu` is longer than `k`. -/
def padMu (k : ℕ) (mu : List ℤ) : List ℤ :=
  if mu.length ≠ k then mu ++ List.replicate (k - mu.length) 0 else mu

/-- The matrix-cell index of `_construct_jacobi_trudi`:
`idx = lam[i] - mu[j] - i + j`. -/
def jtIdx (lam mu : List ℤ) (i j : ℕ) : ℤ :=
  lam.getD i 0 - mu.getD j 0 - (i : ℤ) + (j : ℤ)

/-- Whether one cell triggers the `IndexError` branch: not `idx < 0`, and
`idx >= len(self._h_basis)`. -/
def entryFails (h_basis : List ℚ) (idx : ℤ) : Bool :=
  if idx < 0 then false else decide ((h_basis.length : ℤ) ≤ idx)

/-- The value a non-raising cell receives: `0.0` when `idx < 0`, otherwise
`self._h_basis[idx]`. -/
def jtEntryVal (h_basis : List ℚ) (idx : ℤ) : ℚ :=
  if idx < 0 then 0 else h_basis.getD idx.toNat 0

/-- Whether the double loop of `_construct_jacobi_trudi` raises `IndexError`
at some cell `(i, j)`, `i, j < k`. -/
def degreeExceeded (h_basis : List ℚ) (lam mu : List ℤ) (k : ℕ) : Bool :=
  decide (∃ i < k, ∃ j < k, entryFails h_basis (jtIdx lam mu i j) = true)

/-- `_construct_jacobi_trudi(lam, mu)`: pads `mu`, then fills the `k × k`
matrix cell by cell; an `IndexError` at any cell aborts the construction
(raising in the loop and raising after an upfront scan are
indistinguishable, as no cell write is observable after a raise). -/
def construct_jacobi_trudi (h_basis : List ℚ) (lam mu0 : List ℤ) :
    Except SieveError (Matrix (Fin lam.length) (Fin lam.length) ℚ) :=
  let mu := padMu lam.length mu0
  if degreeExceeded h_basis lam mu lam.length then .error .insufficientDegree
  else .ok (Matrix.of fun i j => jtEntryVal h_basis (jtIdx lam mu (i : ℕ) (j : ℕ)))

/-- `evaluate_partition(lam, mu=None)`: defaults `mu` to `[0] * len(lam)`,
raises `RuntimeError` when the basis is empty, otherwise returns
`np.linalg.det` of the Jacobi-Trudi matrix (the mathematical determinant;
`np.linalg.det` of a `0 × 0` matrix is `1.0`). -/
def evaluate_partition (s : SchurSieve) (lam : List ℤ) (muOpt : Option (List ℤ)) :
    Except SieveError ℚ :=
  let mu := muOpt.getD (List.replicate lam.length 0)
  if s.h_basis.length = 0 then .error .basisUninitialized
  else
    match construct_jacobi_trudi s.h_basis lam mu with
    | .error e => .error e
    | .ok M => .ok M.det

/-- The method call viewed as a state transformer: `evaluate_partition`
assigns to no field of `self`, so the post-state is the pre-state. -/
def evaluate_partition_call (s : SchurSieve) (lam : List ℤ) (muOpt : Option (List ℤ)) :
    Except SieveError ℚ × SchurSieve :=
  (evaluate_partition s lam muOpt, s)

/-- The result dictionary of `compare_topologies`. -/
structure ComparisonResult where
  capacity_denominator : ℚ
  capacity_numerator : ℚ
  chi_ratio : ℚ
  deriving DecidableEq, Repr

/-- `np.isclose(x, 0.0)` with NumPy defaults `rtol = 1e-5`, `atol = 1e-8`:
`|x - 0.0| <= atol + rtol * |0.0|`, i.e. `|x| <= 1e-8`. -/
def npIsCloseZero (x : ℚ) : Bool :=
  decide (|x| ≤ 1 / 10 ^ 8)

/-- `compare_topologies(config_a, config_b)`: evaluates the reference then the
target capacity, raises `ValueError` when the reference capacity is within
`np.isclose` tolerance of zero, otherwise returns the three-field record. -/
def compare_topologies (s : SchurSieve) (config_a config_b : List ℤ × List ℤ) :
    Except SieveError ComparisonResult :=
  match evaluate_partition s config_a.1 (some config_a.2) with
  | .error e => .error e
  | .ok s_a =>
    match evaluate_partition s config_b.1 (some config_b.2) with
    | .error e => .error e
    | .ok s_b =>
      if npIsCloseZero s_a then .error .singularTopology
      else .ok ⟨s_a, s_b, s_b / s_a⟩

/-! ## Basic lemmas about the basis construction -/

theorem buildH_length (ps : List ℚ) (n : ℕ) : (buildH ps n).length = n + 1 := by
  induction n with
  | zero => rfl
  | succ m ih => simp [buildH, ih]

theorem buildH_getD_agree (ps : List ℚ) {a b : ℕ} (h : a ≤ b) {i : ℕ} (hi : i ≤ a) :
    (buildH ps b).getD i 0 = (buildH ps a).getD i 0 := by
  induction b with
  | zero =>
      obtain rfl : a = 0 := Nat.le_zero.mp h
      rfl
  | succ m ih =>
      rcases Nat.eq_or_lt_of_le h with rfl | hlt
      · rfl
      · have ham : a ≤ m := by omega
        have hi' : i < (buildH ps m).length := by rw [buildH_length]; omega
        simp only [buildH]
        rw [List.getD_append _ _ _ _ hi']
        exact ih ham

theorem buildH_getD_zero (ps : List ℚ) (n : ℕ) : (buildH ps n).getD 0 0 = 1 := by
  rw [buildH_getD_agree ps (Nat.zero_le n) (Nat.le_refl 0)]
  rfl

theorem buildH_getD_succ (ps : List ℚ) (m : ℕ) :
    (buildH ps (m + 1)).getD (m + 1) 0
      = newtonTerm ps (buildH ps m) (m + 1) / ((m : ℚ) + 1) := by
  simp only [buildH]
  rw [List.getD_append_right _ _ _ _ (by rw [buildH_length])]
  rw [buildH_length]
  simp

theorem list_range_map_sum (f : ℕ → ℚ) (n : ℕ) :
    ((List.range n).map f).sum = ∑ j in Finset.range n, f j := by
  induction n with
  | zero => simp
  | succ m ih => rw [List.range_succ]; simp [Finset.sum_range_succ, ih]

theorem powerSums_getD (primes : List ℚ) (D i : ℕ) (h : i < D) :
    (powerSums primes D).getD i 0 = powerSum primes (i + 1) := by
  unfold powerSums
  rw [List.getD_eq_getElem _ _ (by simpa using h)]
  simp

/-- The Newton recurrence holds by construction of the `h` list: for
`1 ≤ n ≤ D`, `n * h_n` is the sum `Σ_{k=1}^{n} p_sums[k-1] * h_{n-k}`. -/
theorem buildH_newton (ps : List ℚ) {D n : ℕ} (h1 : 1 ≤ n) (hn : n ≤ D) :
    (n : ℚ) * (buildH ps D).getD n 0
      = ∑ k in Finset.Icc 1 n, ps.getD (k - 1) 0 * (buildH ps D).getD (n - k) 0 := by
  obtain ⟨m, rfl⟩ : ∃ m, n = m + 1 := ⟨n - 1, by omega⟩
  rw [buildH_getD_agree ps hn (Nat.le_refl (m + 1)), buildH_getD_succ]
  have hne : ((m : ℚ) + 1) ≠ 0 := by positivity
  rw [Nat.cast_add, Nat.cast_one, mul_comm, div_mul_cancel₀ _ hne]
  simp only [newtonTerm]
  rw [list_range_map_sum, ← Nat.Ico_succ_right, Finset.sum_Ico_eq_sum_range]
  simp only [Nat.add_sub_cancel]
  apply Finset.sum_congr rfl
  intro j hj
  have hjm : j ≤ m := by simpa [Nat.lt_succ_iff] using hj
  have e1 : 1 + j - 1 = j := by omega
  have e2 : m + 1 - (1 + j) = m - j := by omega
  rw [e1, e2,
    buildH_getD_agree ps (Nat.le_trans (Nat.le_succ m) hn) (by omega : m - j ≤ m)]

/-! ## Evaluation helpers for the matrix pipeline -/

theorem construct_jacobi_trudi_ok (h_basis : List ℚ) (lam mu0 : List ℤ)
    (h : degreeExceeded h_basis lam (padMu lam.length mu0) lam.length = false) :
    construct_jacobi_trudi h_basis lam mu0
      = .ok (Matrix.of fun i j =>
          jtEntryVal h_basis (jtIdx lam (padMu lam.length mu0) (i : ℕ) (j : ℕ))) := by
  simp [construct_jacobi_trudi, h]

theorem evaluate_partition_nil (s : SchurSieve) (hs : s.h_basis.length ≠ 0) :
    evaluate_partition s [] (some []) = .ok 1 := by
  have hde : degreeExceeded s.h_basis [] (padMu ([] : List ℤ).length []) 0 = false := by
    simp [degreeExceeded]
  simp only [evaluate_partition, Option.getD_some]
  rw [if_neg hs, construct_jacobi_trudi_ok _ _ _ hde]
  exact congrArg Except.ok Matrix.det_fin_zero

theorem evaluate_partition_single (s : SchurSieve) (hs : s.h_basis.length ≠ 0) (a b : ℤ)
    (h0 : 0 ≤ a - b) (hlt : a - b < (s.h_basis.length : ℤ)) :
    evaluate_partition s [a] (some [b]) = .ok (s.h_basis.getD (a - b).toNat 0) := by
  have hidx : jtIdx [a] (padMu ([a] : List ℤ).length [b]) 0 0 = a - b := by
    simp [jtIdx, padMu]
  have hef : entryFails s.h_basis (a - b) = false := by
    rw [entryFails, if_neg (not_lt.mpr h0)]
    simpa using not_le.mpr hlt
  have hde : degreeExceeded s.h_basis [a]
      (padMu ([a] : List ℤ).length [b]) ([a] : List ℤ).length = false := by
    rw [degreeExceeded, decide_eq_false_iff_not]
    rintro ⟨i, hi, j, hj, hfail⟩
    simp only [List.length_cons, List.length_nil, Nat.lt_succ_iff, Nat.le_zero] at hi hj
    subst hi; subst hj
    rw [hidx, hef] at hfail
    exact Bool.false_ne_true hfail
  simp only [evaluate_partition, Option.getD_some]
  rw [if_neg hs, construct_jacobi_trudi_ok _ _ _ hde]
  refine congrArg Except.ok (Eq.trans (Matrix.det_fin_one _) ?_)
  show jtEntryVal s.h_basis (jtIdx [a] (padMu ([a] : List ℤ).length [b]) 0 0) = _
  rw [hidx, jtEntryVal, if_neg (not_lt.mpr h0)]

/-- The `Uninitialized` state of the spec's state machine: the basis is the
empty array, as after `__init__`. -/
def Uninitialized (s : SchurSieve) : Prop :=
  s.h_basis = []

/-- The `BasisReady` state: a successful `compute_basis` has stored a basis
`h_0 .. h_degree`, hence of length `degree + 1`. -/
def BasisReady (s : SchurSieve) : Prop :=
  s.h_basis.length = s.degree + 1

/-! ## Claim theorems -/

/-- C1: for every prime sequence with all entries non-zero and every positive
integer `D`, after `compute_basis(D)` the stored basis satisfies `h_0 = 1`
exactly and, for every `n` in `1..D`, `n * h_n` equals the sum over
`k = 1..n` of `p_k * h_(n-k)`, where `p_k` is the sum over the primes of
`(1/prime_i)^k`.  In the exact-arithmetic model the recurrence holds with
zero error, which is within any floating-point tolerance. -/
theorem compute_basis_newton_recurrence (s : SchurSieve)
    (hp : ∀ p ∈ s.primes, p ≠ 0) (D : ℕ) (hD : 0 < D) (s2 : SchurSieve)
    (hcb : compute_basis s (D : ℤ) = .ok s2) :
    s2.h_basis.getD 0 0 = 1 ∧
    ∀ n, 1 ≤ n → n ≤ D →
      (n : ℚ) * s2.h_basis.getD n 0
        = ∑ k in Finset.Icc 1 n, powerSum s.primes k * s2.h_basis.getD (n - k) 0 := by
  have hneg : ¬ ((D : ℤ) ≤ 0) := by omega
  rw [compute_basis, if_neg hneg] at hcb
  simp only [Int.toNat_natCast] at hcb
  obtain rfl : _ = s2 := Except.ok.inj hcb
  constructor
  · exact buildH_getD_zero _ _
  · intro n h1 hn
    rw [buildH_newton _ h1 hn]
    apply Finset.sum_congr rfl
    intro k hk
    rw [Finset.mem_Icc] at hk
    rw [powerSums_getD s.primes D (k - 1) (by omega)]
    congr 2
    omega

/-- Witness for C1: primes `[2]`, `D = 1`; the computed basis is
`[1, 1/2]` and it satisfies both conclusions. -/
theorem compute_basis_newton_recurrence_witness :
    compute_basis (⟨[2], [], 0⟩ : SchurSieve) ((1 : ℕ) : ℤ)
        = .ok ⟨[2], [1, 1/2], 1⟩ ∧
    ((⟨[2], [1, 1/2], 1⟩ : SchurSieve).h_basis.getD 0 0 = 1 ∧
      ∀ n : ℕ, 1 ≤ n → n ≤ 1 →
        (n : ℚ) * (⟨[2], [1, 1/2], 1⟩ : SchurSieve).h_basis.getD n 0
          = ∑ k in Finset.Icc 1 n,
              powerSum [2] k * (⟨[2], [1, 1/2], 1⟩ : SchurSieve).h_basis.getD (n - k) 0) := by
  have hcb : compute_basis (⟨[2], [], 0⟩ : SchurSieve) ((1 : ℕ) : ℤ)
      = .ok ⟨[2], [1, 1/2], 1⟩ := by
    norm_num [compute_basis, powerSums, powerSum, buildH, newtonTerm, List.range_succ]
  exact ⟨hcb, compute_basis_newton_recurrence ⟨[2], [], 0⟩ (by norm_num) 1 one_pos
    ⟨[2], [1, 1/2], 1⟩ hcb⟩

/-- C7: for every integer `max_degree ≤ 0`, `compute_basis` fails with the
invalid-degree error, for every evaluator state (hence every stored prime
sequence). -/
theorem compute_basis_nonpositive_degree_error (s : SchurSieve) (max_degree : ℤ)
    (h : max_degree ≤ 0) :
    compute_basis s max_degree = .error .invalidDegree := by
  rw [compute_basis, if_pos h]

/-- Witness for C7: degree `0` on a concrete state. -/
theorem compute_basis_nonpositive_degree_error_witness :
    (0 : ℤ) ≤ 0 ∧
    compute_basis (⟨[2], [], 0⟩ : SchurSieve) 0 = .error .invalidDegree :=
  ⟨le_refl 0, compute_basis_nonpositive_degree_error ⟨[2], [], 0⟩ 0 (le_refl 0)⟩

/-- C6: in the `Uninitialized` state (empty basis, as before any successful
`compute_basis`), `evaluate_partition` — and through it `compare_topologies` —
fails with the basis-uninitialized error for every input partition pair. -/
theorem evaluate_uninitialized_error (s : SchurSieve) (hu : Uninitialized s)
    (lam : List ℤ) (muOpt : Option (List ℤ)) (config_a config_b : List ℤ × List ℤ) :
    evaluate_partition s lam muOpt = .error .basisUninitialized ∧
    compare_topologies s config_a config_b = .error .basisUninitialized := by
  have hlen : s.h_basis.length = 0 := by rw [hu]; rfl
  have heval : ∀ l : List ℤ, ∀ m : Option (List ℤ),
      evaluate_partition s l m = .error .basisUninitialized := by
    intro l m
    simp [evaluate_partition, hlen]
  refine ⟨heval lam muOpt, ?_⟩
  rw [compare_topologies, heval config_a.1 (some config_a.2)]

/-- Witness for C6: the freshly initialized state with primes `[2, 3]`. -/
theorem evaluate_uninitialized_error_witness :
    Uninitialized (initSieve [2, 3]) ∧
    (evaluate_partition (initSieve [2, 3]) [1] (some [0])
        = .error .basisUninitialized ∧
      compare_topologies (initSieve [2, 3]) ([1], [0]) ([2], [0])
        = .error .basisUninitialized) :=
  ⟨rfl, evaluate_uninitialized_error (initSieve [2, 3]) rfl [1] (some [0])
    ([1], [0]) ([2], [0])⟩

/-- C8: in any `BasisReady` state, `evaluate_partition` on the empty shape
`lam = [], mu = []` builds the `0 × 0` matrix and returns its determinant,
the multiplicative identity `1`. -/
theorem evaluate_partition_empty_shape (s : SchurSieve) (hs : BasisReady s) :
    evaluate_partition s [] (some []) = .ok 1 := by
  have hlen : s.h_basis.length ≠ 0 := by rw [hs]; exact Nat.succ_ne_zero _
  exact evaluate_partition_nil s hlen

/-- Witness for C8: a ready state with basis `[1]` of degree `0`. -/
theorem evaluate_partition_empty_shape_witness :
    BasisReady (⟨[], [1], 0⟩ : SchurSieve) ∧
    evaluate_partition (⟨[], [1], 0⟩ : SchurSieve) [] (some []) = .ok 1 :=
  ⟨rfl, evaluate_partition_empty_shape ⟨[], [1], 0⟩ rfl⟩

/-- C9: two calls of `evaluate_partition` with identical arguments and no
intervening `compute_basis` return identical results, and neither call
changes the stored prime sequence, basis, or degree — the method writes no
field of the evaluator. -/
theorem evaluate_partition_idempotent (s : SchurSieve) (lam : List ℤ)
    (muOpt : Option (List ℤ)) :
    (evaluate_partition_call s lam muOpt).1
        = (evaluate_partition_call (evaluate_partition_call s lam muOpt).2 lam muOpt).1 ∧
    (evaluate_partition_call s lam muOpt).2.primes = s.primes ∧
    (evaluate_partition_call s lam muOpt).2.h_basis = s.h_basis ∧
    (evaluate_partition_call s lam muOpt).2.degree = s.degree :=
  ⟨rfl, rfl, rfl, rfl⟩

/-- C3: in a `BasisReady` state of degree `D`, if some cell `(i, j)` of the
Jacobi-Trudi construction has index `lam[i] - mu[j] - i + j > D` (with `mu`
padded), then the matrix construction — and hence `evaluate_partition` —
fails with the insufficient-degree error; the entry is never truncated or
zeroed. -/
theorem construct_jacobi_trudi_degree_guard (s : SchurSieve) (hs : BasisReady s)
    (lam mu : List ℤ) (i j : ℕ) (hi : i < lam.length) (hj : j < lam.length)
    (hidx : (s.degree : ℤ) < jtIdx lam (padMu lam.length mu) i j) :
    construct_jacobi_trudi s.h_basis lam mu = .error .insufficientDegree ∧
    evaluate_partition s lam (some mu) = .error .insufficientDegree := by
  have hnneg : ¬ (jtIdx lam (padMu lam.length mu) i j < 0) := by omega
  have hfail : entryFails s.h_basis (jtIdx lam (padMu lam.length mu) i j) = true := by
    rw [entryFails, if_neg hnneg]
    simp only [decide_eq_true_eq]
    rw [hs]
    push_cast
    omega
  have hde : degreeExceeded s.h_basis lam (padMu lam.length mu) lam.length = true := by
    simp only [degreeExceeded, decide_eq_true_eq]
    exact ⟨i, hi, j, hj, hfail⟩
  have hcon : construct_jacobi_trudi s.h_basis lam mu = .error .insufficientDegree := by
    simp only [construct_jacobi_trudi]
    rw [if_pos hde]
  refine ⟨hcon, ?_⟩
  have hlen : ¬ (s.h_basis.length = 0) := by rw [hs]; exact Nat.succ_ne_zero _
  simp only [evaluate_partition, Option.getD_some]
  rw [if_neg hlen, hcon]

/-- Witness for C3: basis `[1]` of degree `0`, shape `lam = [1], mu = []`;
the single cell has index `1 > 0`. -/
theorem construct_jacobi_trudi_degree_guard_witness :
    BasisReady (⟨[], [1], 0⟩ : SchurSieve) ∧
    (((⟨[], [1], 0⟩ : SchurSieve).degree : ℤ)
        < jtIdx [1] (padMu ([1] : List ℤ).length []) 0 0) ∧
    (construct_jacobi_trudi (⟨[], [1], 0⟩ : SchurSieve).h_basis [1] []
        = .error .insufficientDegree ∧
      evaluate_partition (⟨[], [1], 0⟩ : SchurSieve) [1] (some [])
        = .error .insufficientDegree) :=
  ⟨rfl, by decide, construct_jacobi_trudi_degree_guard ⟨[], [1], 0⟩ rfl [1] []
    0 0 (by decide) (by decide) (by decide)⟩

/-- C4: in a `BasisReady` state, every cell of a successfully constructed
Jacobi-Trudi matrix with negative index `lam[i] - mu[j] - i + j` (with `mu`
padded) equals `0`, regardless of the basis contents, and every cell whose
index lies in `0..degree` equals the stored basis value at that index. -/
theorem jacobi_trudi_entry_convention (s : SchurSieve) (hs : BasisReady s)
    (lam mu : List ℤ) (M : Matrix (Fin lam.length) (Fin lam.length) ℚ)
    (hM : construct_jacobi_trudi s.h_basis lam mu = .ok M) (i j : Fin lam.length) :
    (jtIdx lam (padMu lam.length mu) (i : ℕ) (j : ℕ) < 0 → M i j = 0) ∧
    (0 ≤ jtIdx lam (padMu lam.length mu) (i : ℕ) (j : ℕ) →
      (jtIdx lam (padMu lam.length mu) (i : ℕ) (j : ℕ)).toNat ≤ s.degree →
      M i j = s.h_basis.getD (jtIdx lam (padMu lam.length mu) (i : ℕ) (j : ℕ)).toNat 0) := by
  simp only [construct_jacobi_trudi] at hM
  by_cases hde : degreeExceeded s.h_basis lam (padMu lam.length mu) lam.length = true
  · rw [if_pos hde] at hM
    exact absurd hM (by simp)
  · rw [if_neg hde] at hM
    obtain rfl : _ = M := Except.ok.inj hM
    constructor
    · intro hneg
      show jtEntryVal s.h_basis (jtIdx lam (padMu lam.length mu) (i : ℕ) (j : ℕ)) = 0
      rw [jtEntryVal, if_pos hneg]
    · intro hpos _
      show jtEntryVal s.h_basis (jtIdx lam (padMu lam.length mu) (i : ℕ) (j : ℕ)) = _
      rw [jtEntryVal, if_neg (not_lt.mpr hpos)]

/-- Witness for C4: basis `[1]` of degree `0`, shape `lam = [1], mu = [2]`;
the single cell has index `-1` and the matrix entry is `0`. -/
theorem jacobi_trudi_entry_convention_witness :
    BasisReady (⟨[], [1], 0⟩ : SchurSieve) ∧
    construct_jacobi_trudi (⟨[], [1], 0⟩ : SchurSieve).h_basis [1] [2]
        = .ok (Matrix.of fun i j : Fin 1 =>
            jtEntryVal [1] (jtIdx [1] (padMu 1 [2]) (i : ℕ) (j : ℕ))) ∧
    ((jtIdx [1] (padMu 1 [2]) ((0 : Fin 1) : ℕ) ((0 : Fin 1) : ℕ) < 0 →
        (Matrix.of fun i j : Fin 1 =>
            jtEntryVal [1] (jtIdx [1] (padMu 1 [2]) (i : ℕ) (j : ℕ))) 0 0 = 0) ∧
      (0 ≤ jtIdx [1] (padMu 1 [2]) ((0 : Fin 1) : ℕ) ((0 : Fin 1) : ℕ) →
        (jtIdx [1] (padMu 1 [2]) ((0 : Fin 1) : ℕ)
            ((0 : Fin 1) : ℕ)).toNat ≤ (⟨[], [1], 0⟩ : SchurSieve).degree →
        (Matrix.of fun i j : Fin 1 =>
            jtEntryVal [1] (jtIdx [1] (padMu 1 [2]) (i : ℕ) (j : ℕ))) 0 0
          = (⟨[], [1], 0⟩ : SchurSieve).h_basis.getD
              (jtIdx [1] (padMu 1 [2]) ((0 : Fin 1) : ℕ)
                ((0 : Fin 1) : ℕ)).toNat 0)) :=
  ⟨rfl, construct_jacobi_trudi_ok _ _ _ (by decide),
    jacobi_trudi_entry_convention ⟨[], [1], 0⟩ rfl [1] [2] _
      (construct_jacobi_trudi_ok _ _ _ (by decide)) (0 : Fin 1) (0 : Fin 1)⟩

/-- C2: for configurations evaluable in the current `BasisReady` state,
`compare_topologies` fails with the singular-topology error when the
reference capacity is within the `np.isclose` tolerance of zero (never
returning an infinite or undefined ratio), and otherwise returns the record
of reference capacity, target capacity, and their ratio. -/
theorem compare_topologies_singular_guard (s : SchurSieve) (hs : BasisReady s)
    (config_a config_b : List ℤ × List ℤ) (s_a s_b : ℚ)
    (ha : evaluate_partition s config_a.1 (some config_a.2) = .ok s_a)
    (hb : evaluate_partition s config_b.1 (some config_b.2) = .ok s_b) :
    (|s_a| ≤ 1 / 10 ^ 8 →
      compare_topologies s config_a config_b = .error .singularTopology) ∧
    (¬ |s_a| ≤ 1 / 10 ^ 8 →
      compare_topologies s config_a config_b
        = .ok ⟨s_a, s_b, s_b / s_a⟩) := by
  simp only [compare_topologies, ha, hb]
  constructor
  · intro h
    rw [if_pos (show npIsCloseZero s_a = true by
      simp only [npIsCloseZero, decide_eq_true_eq]; exact h)]
  · intro h
    rw [if_neg (show ¬ npIsCloseZero s_a = true by
      simp only [npIsCloseZero, decide_eq_true_eq]; exact h)]

/-- Witness for C2: basis `[1]` of degree `0`; both configurations are
`lam = [1], mu = [1]` with capacity `1`, so the comparison succeeds with
ratio `1/1`. -/
theorem compare_topologies_singular_guard_witness :
    BasisReady (⟨[], [1], 0⟩ : SchurSieve) ∧
    evaluate_partition (⟨[], [1], 0⟩ : SchurSieve) [1] (some [1]) = .ok 1 ∧
    ((|(1 : ℚ)| ≤ 1 / 10 ^ 8 →
        compare_topologies (⟨[], [1], 0⟩ : SchurSieve) ([1], [1]) ([1], [1])
          = .error .singularTopology) ∧
      (¬ |(1 : ℚ)| ≤ 1 / 10 ^ 8 →
        compare_topologies (⟨[], [1], 0⟩ : SchurSieve) ([1], [1]) ([1], [1])
          = .ok ⟨1, 1, 1 / 1⟩)) := by
  have ha : evaluate_partition (⟨[], [1], 0⟩ : SchurSieve) [1] (some [1]) = .ok 1 :=
    evaluate_partition_single ⟨[], [1], 0⟩ (by decide) 1 1 (by decide) (by decide)
  exact ⟨rfl, ha,
    compare_topologies_singular_guard ⟨[], [1], 0⟩ rfl ([1], [1]) ([1], [1]) 1 1 ha ha⟩

/-- C10: in a `BasisReady` state, a `mu` strictly longer than `lam` does not
fail with a length or shape error: the padding expression leaves `mu`
unchanged (Python's `mu + [0] * negative` is `mu`), only its first
`len(lam)` entries are read, and the result equals `evaluate_partition` on
`mu` truncated to `lam`'s length. -/
theorem evaluate_partition_long_mu (s : SchurSieve) (hs : BasisReady s)
    (lam mu : List ℤ) (h : lam.length < mu.length) :
    padMu lam.length mu = mu ∧
    evaluate_partition s lam (some mu)
      = evaluate_partition s lam (some (mu.take lam.length)) := by
  have hpad : padMu lam.length mu = mu := by
    rw [padMu, if_pos (by omega)]
    have h0 : lam.length - mu.length = 0 := by omega
    rw [h0]
    simp
  have htake : padMu lam.length (mu.take lam.length) = mu.take lam.length := by
    rw [padMu, if_neg]
    simp only [ne_eq, List.length_take, not_not]
    omega
  have hgetD : ∀ j, j < lam.length → (mu.take lam.length).getD j 0 = mu.getD j 0 := by
    intro j hj
    rw [List.getD_eq_getElem?_getD, List.getD_eq_getElem?_getD,
      List.getElem?_take, if_pos hj]
  have hidx : ∀ i j : ℕ, j < lam.length →
      jtIdx lam (padMu lam.length mu) i j
        = jtIdx lam (padMu lam.length (mu.take lam.length)) i j := by
    intro i j hj
    rw [hpad, htake, jtIdx, jtIdx, hgetD j hj]
  have hde : degreeExceeded s.h_basis lam (padMu lam.length mu) lam.length
      = degreeExceeded s.h_basis lam
          (padMu lam.length (mu.take lam.length)) lam.length := by
    rw [degreeExceeded, degreeExceeded, decide_eq_decide]
    constructor
    · rintro ⟨i, hi, j, hj, hf⟩
      exact ⟨i, hi, j, hj, by rw [← hidx i j hj]; exact hf⟩
    · rintro ⟨i, hi, j, hj, hf⟩
      exact ⟨i, hi, j, hj, by rw [hidx i j hj]; exact hf⟩
  have hmat : construct_jacobi_trudi s.h_basis lam mu
      = construct_jacobi_trudi s.h_basis lam (mu.take lam.length) := by
    simp only [construct_jacobi_trudi]
    rw [hde]
    by_cases hb : degreeExceeded s.h_basis lam
        (padMu lam.length (mu.take lam.length)) lam.length = true
    · rw [if_pos hb, if_pos hb]
    · rw [if_neg hb, if_neg hb]
      congr 1
      funext i j
      simp only [Matrix.of_apply]
      rw [hidx (i : ℕ) (j : ℕ) j.isLt]
  exact ⟨hpad, by simp only [evaluate_partition, Option.getD_some]; rw [hmat]⟩

/-- Witness for C10: basis `[1]` of degree `0`, `lam = [1]`, `mu = [1, 5]`;
the padding leaves `mu` unchanged and the capacity agrees with the
truncation `mu = [1]`. -/
theorem evaluate_partition_long_mu_witness :
    BasisReady (⟨[], [1], 0⟩ : SchurSieve) ∧
    ([1] : List ℤ).length < ([1, 5] : List ℤ).length ∧
    (padMu ([1] : List ℤ).length [1, 5] = [1, 5] ∧
      evaluate_partition (⟨[], [1], 0⟩ : SchurSieve) [1] (some [1, 5])
        = evaluate_partition (⟨[], [1], 0⟩ : SchurSieve) [1]
            (some (([1, 5] : List ℤ).take ([1] : List ℤ).length))) :=
  ⟨rfl, by decide,
    evaluate_partition_long_mu ⟨[], [1], 0⟩ rfl [1] [1, 5] (by decide)⟩

/-- C5 counterexample: with primes `[2, 3, 5]` and `compute_basis(2)`, the
exact value of `evaluate_partition([2], [0])` is `h_2 = 661/900 =
0.73444…`, which is NOT within `10⁻⁵` of the spec's claimed `0.734479`
(the discrepancy `311/9000000 ≈ 3.46e-5` is far beyond floating-point
tolerance; double rounding error in this pipeline is below `1e-12`). -/
theorem evaluate_partition_spec_value_counterexample :
    compute_basis (initSieve [2, 3, 5]) 2
        = .ok ⟨[2, 3, 5], [1, 31/30, 661/900], 2⟩ ∧
    evaluate_partition (⟨[2, 3, 5], [1, 31/30, 661/900], 2⟩ : SchurSieve) [2] (some [0])
        = .ok (661/900) ∧
    ¬ |(661 : ℚ)/900 - 734479/1000000| ≤ 1/100000 := by
  refine ⟨?_, ?_, ?_⟩
  · norm_num [compute_basis, initSieve, powerSums, powerSum, buildH, newtonTerm,
      List.range_succ]
    rfl
  · exact evaluate_partition_single ⟨[2, 3, 5], [1, 31/30, 661/900], 2⟩
      (by decide) 2 0 (by decide) (by decide)
  · rw [abs_of_neg (by norm_num)]
    norm_num

/-- C5 as amended: with primes `[2, 3, 5]` and after `compute_basis(2)`,
`evaluate_partition([1], [0])` returns `h_1 = 31/30 ≈ 1.033333` (within
`10⁻⁵` of the spec's printed value) and `evaluate_partition([2], [0])`
returns `h_2 = 661/900 ≈ 0.734444` (the spec's printed `0.734479` was a
slip for `0.734444`). -/
theorem evaluate_partition_concrete_values :
    compute_basis (initSieve [2, 3, 5]) 2
        = .ok ⟨[2, 3, 5], [1, 31/30, 661/900], 2⟩ ∧
    evaluate_partition (⟨[2, 3, 5], [1, 31/30, 661/900], 2⟩ : SchurSieve) [1] (some [0])
        = .ok (31/30) ∧
    |(31 : ℚ)/30 - 1033333/1000000| ≤ 1/100000 ∧
    evaluate_partition (⟨[2, 3, 5], [1, 31/30, 661/900], 2⟩ : SchurSieve) [2] (some [0])
        = .ok (661/900) ∧
    |(661 : ℚ)/900 - 734444/1000000| ≤ 1/100000 := by
  refine ⟨?_, ?_, ?_, ?_, ?_⟩
  · norm_num [compute_basis, initSieve, powerSums, powerSum, buildH, newtonTerm,
      List.range_succ]
    rfl
  · exact evaluate_partition_single ⟨[2, 3, 5], [1, 31/30, 661/900], 2⟩
      (by decide) 1 0 (by decide) (by decide)
  · rw [abs_of_pos (by norm_num)]
    norm_num
  · exact evaluate_partition_single ⟨[2, 3, 5], [1, 31/30, 661/900], 2⟩
      (by decide) 2 0 (by decide) (by decide)
  · rw [abs_of_pos (by norm_num)]
    norm_num

end SchurSieveModel
